import Mathlib

/-!
Verification of the bcrypto DSA/RSA core against its specification.

The development shallowly embeds the JavaScript sources
(`lib/js/dsa.js`, `lib/internal/dsakey.js`, `lib/native/rsa.js`) and the
native source `src/dsa/dsa.c`.  Byte buffers are `List ℕ` of values `< 256`
(big-endian, most significant byte first); BN big integers are `ℕ`;
JavaScript exceptions are `Except`; the external randomness source is an
explicit stream of byte buffers; unbounded `for (;;)` loops take explicit
fuel, with `none` standing for a run that never terminates.

External collaborators that are not part of the sources (the vendored
bn.js big-integer library, `lib/encoding/util.js`, `lib/encoding/base64.js`,
`lib/internal/dsasig.js`, the primality tester and the RNG) are modelled
from the specification's contracts; each such definition carries a
`Modelled from the spec` note in its doc comment.
-/

/-! ## Big-endian byte buffers and BN values -/

/-- Value of a big-endian byte buffer, as read by `new BN(buffer)`:
most significant byte first (leading zero bytes are insignificant). -/
def bn : List ℕ → ℕ
  | [] => 0
  | b :: rest => b * 256 ^ rest.length + bn rest

/-- Fuel-driven bit length; `bitLenAux f n` is the bit length of `n`
whenever `n ≤ f`. -/
def bitLenAux : ℕ → ℕ → ℕ
  | 0, _ => 0
  | f + 1, n => if n = 0 then 0 else bitLenAux f (n / 2) + 1

/-- Bit length of a natural number, the semantics of bn.js `bitLength()`
(`bitLen 0 = 0`).  Modelled from the spec: bn.js is a vendored external. -/
def bitLen (n : ℕ) : ℕ := bitLenAux n n

/-- Fuel-driven minimal big-endian byte serialisation; correct when `n ≤ f`.
Serialises `0` to `[]`. -/
def beBytesF : ℕ → ℕ → List ℕ
  | 0, _ => []
  | f + 1, n => if n = 0 then [] else beBytesF f (n / 256) ++ [n % 256]

/-- Minimal big-endian bytes of `n`, the semantics of bn.js
`toArrayLike(Buffer, 'be')` (zero serialises to the single byte `0x00`).
Modelled from the spec: bn.js is a vendored external. -/
def toBuffer (n : ℕ) : List ℕ := if n = 0 then [0] else beBytesF n n

/-- Modelled from the spec (`lib/encoding/util.js` is not in the sources):
`leftPad(val, size)` left-pads a buffer with zero bytes to `size` bytes. -/
def leftPad (data : List ℕ) (size : ℕ) : List ℕ :=
  List.replicate (size - data.length) 0 ++ data

/-- Modelled from the spec (`lib/encoding/util.js` is not in the sources):
`trimLeft` strips leading zero bytes; the empty buffer is canonical zero. -/
def trimLeft (data : List ℕ) : List ℕ := data.dropWhile (fun b => b == 0)

/-- Bit count of a big-endian buffer, skipping leading zero bytes; this is
`countLeft` of `lib/encoding/util.js` and, identically, `bcrypto_count_bits`
of `src/dsa/dsa.c` (the `while (oct)` loop is `bitLen` of the first nonzero
byte). -/
def countLeft : List ℕ → ℕ
  | [] => 0
  | b :: rest => if b = 0 then countLeft rest else 8 * rest.length + bitLen b

/-- Fuel-driven square-and-multiply; `modPowAux f x y m = x ^ y % m`
whenever `y ≤ f`. -/
def modPowAux : ℕ → ℕ → ℕ → ℕ → ℕ
  | 0, _, _, m => 1 % m
  | f + 1, x, y, m =>
    if y = 0 then 1 % m
    else
      let h := modPowAux f (x * x % m) (y / 2) m
      if y % 2 = 1 then h * x % m else h

/-- Modular exponentiation `x ^ y mod m`, the semantics of
`modPow(x, y, m) = x.toRed(BN.mont(m)).redPow(y).fromRed()` in
`lib/js/dsa.js` for the odd moduli the library uses it with.
Modelled from the spec §4.1: bn.js is a vendored external. -/
def modPow (x y m : ℕ) : ℕ := modPowAux y x y m

/-- Fuel-driven extended Euclid; for `a ≤ f`, `xgcdF f a b = (u, v)` with
`u * a + v * b = gcd a b`. -/
def xgcdF : ℕ → ℕ → ℕ → ℤ × ℤ
  | 0, _, _ => (0, 1)
  | f + 1, a, b =>
    if a = 0 then (0, 1)
    else
      let w := xgcdF f (b % a) a
      (w.2 - ((b / a : ℕ) : ℤ) * w.1, w.1)

/-- Modelled from the spec §4.1 (bn.js `invm` is a vendored external):
the extended-GCD coefficient of `a` reduced into `[0, m)`, which is the
inverse of `a` modulo `m` whenever `gcd a m = 1`. -/
def invm (a m : ℕ) : ℕ := (((xgcdF a a m).1 % (m : ℤ) + m) % (m : ℤ)).toNat

/-! ## Basic lemmas about the buffer and arithmetic helpers -/

theorem bn_append (l₁ l₂ : List ℕ) :
    bn (l₁ ++ l₂) = bn l₁ * 256 ^ l₂.length + bn l₂ := by
  induction l₁ with
  | nil => simp [bn]
  | cons b rest ih =>
      show bn (b :: (rest ++ l₂)) = _
      simp only [bn, ih, List.length_append, List.length_cons]
      ring

theorem bn_replicate_zero (j : ℕ) : bn (List.replicate j 0) = 0 := by
  induction j with
  | zero => rfl
  | succ j ih => simp [List.replicate, bn, ih]

theorem bn_lt_pow {l : List ℕ} (h : ∀ x ∈ l, x < 256) :
    bn l < 256 ^ l.length := by
  induction l with
  | nil => simp [bn]
  | cons b rest ih =>
      have hb : b < 256 := h b (List.mem_cons_self b rest)
      have hr : bn rest < 256 ^ rest.length :=
        ih fun x hx => h x (List.mem_cons_of_mem b hx)
      have hb' : b * 256 ^ rest.length ≤ 255 * 256 ^ rest.length :=
        Nat.mul_le_mul_right _ (by omega)
      calc bn (b :: rest) = b * 256 ^ rest.length + bn rest := rfl
        _ < b * 256 ^ rest.length + 256 ^ rest.length := by omega
        _ ≤ 255 * 256 ^ rest.length + 256 ^ rest.length := by omega
        _ = 256 ^ (rest.length + 1) := by ring
        _ = 256 ^ (b :: rest).length := by simp

theorem bitLenAux_eq_size {f n : ℕ} (h : n ≤ f) : bitLenAux f n = Nat.size n := by
  induction f generalizing n with
  | zero =>
      have : n = 0 := Nat.le_zero.mp h
      simp [bitLenAux, this]
  | succ f ih =>
      by_cases h0 : n = 0
      · simp [bitLenAux, h0]
      · have hdiv : n / 2 ≤ f := by
          have : n / 2 < n := Nat.div_lt_self (Nat.pos_of_ne_zero h0) one_lt_two
          omega
        have hbit : Nat.bit (n.testBit 0) (n >>> 1) = n :=
          Nat.bit_testBit_zero_shiftRight_one n
        have hne : Nat.bit (n.testBit 0) (n >>> 1) ≠ 0 := by rw [hbit]; exact h0
        have hsz : Nat.size n = Nat.size (n >>> 1) + 1 := by
          conv_lhs => rw [← hbit]
          rw [Nat.size_bit hne]
        have hshift : n >>> 1 = n / 2 := Nat.shiftRight_one n
        simp only [bitLenAux, h0, if_false, ih hdiv, hsz, hshift]

theorem bitLen_eq_size (n : ℕ) : bitLen n = Nat.size n :=
  bitLenAux_eq_size le_rfl

theorem bitLen_lt (n : ℕ) : n < 2 ^ bitLen n := by
  rw [bitLen_eq_size]; exact Nat.lt_size_self n

theorem bitLen_le {m n : ℕ} : bitLen m ≤ n ↔ m < 2 ^ n := by
  rw [bitLen_eq_size]; exact Nat.size_le

theorem lt_bitLen {m n : ℕ} : m < bitLen n ↔ 2 ^ m ≤ n := by
  rw [bitLen_eq_size]; exact Nat.lt_size

theorem bn_beBytesF {f n : ℕ} (h : n ≤ f) : bn (beBytesF f n) = n := by
  induction f generalizing n with
  | zero =>
      have : n = 0 := Nat.le_zero.mp h
      simp [beBytesF, this, bn]
  | succ f ih =>
      by_cases h0 : n = 0
      · simp [beBytesF, h0, bn]
      · have hdiv : n / 256 ≤ f := by
          have : n / 256 < n := Nat.div_lt_self (Nat.pos_of_ne_zero h0) (by omega)
          omega
        simp only [beBytesF, h0, if_false, bn_append, ih hdiv, bn, List.length]
        simp [bn]
        omega

theorem bn_toBuffer (n : ℕ) : bn (toBuffer n) = n := by
  by_cases h0 : n = 0
  · simp [toBuffer, h0, bn]
  · simp [toBuffer, h0, bn_beBytesF le_rfl]

theorem beBytesF_length_le {f n m : ℕ} (hf : n ≤ f) (h : n < 256 ^ m) :
    (beBytesF f n).length ≤ m := by
  induction f generalizing n m with
  | zero => simp [beBytesF]
  | succ f ih =>
      by_cases h0 : n = 0
      · simp [beBytesF, h0]
      · have hm : m ≠ 0 := by
          rintro rfl
          simp at h
          omega
        obtain ⟨m', rfl⟩ : ∃ m', m = m' + 1 := ⟨m - 1, by omega⟩
        have hdiv : n / 256 ≤ f := by
          have : n / 256 < n := Nat.div_lt_self (Nat.pos_of_ne_zero h0) (by omega)
          omega
        have hlt : n / 256 < 256 ^ m' := by
          rw [Nat.div_lt_iff_lt_mul (by omega : 0 < 256)]
          calc n < 256 ^ (m' + 1) := h
            _ = 256 ^ m' * 256 := by ring
        have := ih hdiv hlt
        simp only [beBytesF, h0, if_false, List.length_append, List.length]
        omega

theorem bn_leftPad_toBuffer (sz n : ℕ) : bn (leftPad (toBuffer n) sz) = n := by
  simp [leftPad, bn_append, bn_replicate_zero, bn_toBuffer]

theorem modPowAux_eq {f x y m : ℕ} (h : y ≤ f) : modPowAux f x y m = x ^ y % m := by
  induction f generalizing x y with
  | zero =>
      have : y = 0 := Nat.le_zero.mp h
      simp [modPowAux, this]
  | succ f ih =>
      by_cases h0 : y = 0
      · simp [modPowAux, h0]
      · have hdiv : y / 2 ≤ f := by
          have : y / 2 < y := Nat.div_lt_self (Nat.pos_of_ne_zero h0) one_lt_two
          omega
        have hrec : modPowAux f (x * x % m) (y / 2) m = (x * x % m) ^ (y / 2) % m := ih hdiv
        have hpow : (x * x % m) ^ (y / 2) % m = (x * x) ^ (y / 2) % m :=
          (Nat.pow_mod (x * x) (y / 2) m).symm
        have hxx : (x * x) ^ (y / 2) = x ^ (2 * (y / 2)) := by
          rw [two_mul, pow_add, ← pow_two]
          ring
        by_cases hodd : y % 2 = 1
        · have hy : 2 * (y / 2) + 1 = y := by omega
          simp only [modPowAux, h0, if_false, hodd, if_true, hrec, hpow, hxx]
          rw [Nat.mod_mul_mod, ← pow_succ, hy]
        · have hy : 2 * (y / 2) = y := by omega
          simp only [modPowAux, h0, if_false, hodd, if_false, hrec, hpow, hxx, hy]

theorem modPow_eq (x y m : ℕ) : modPow x y m = x ^ y % m :=
  modPowAux_eq le_rfl

theorem xgcdF_spec {f a b : ℕ} (h : a ≤ f) :
    (xgcdF f a b).1 * a + (xgcdF f a b).2 * b = Nat.gcd a b := by
  induction f generalizing a b with
  | zero =>
      have : a = 0 := Nat.le_zero.mp h
      simp [xgcdF, this]
  | succ f ih =>
      by_cases h0 : a = 0
      · simp [xgcdF, h0]
      · have hmod : b % a ≤ f := by
          have : b % a < a := Nat.mod_lt b (Nat.pos_of_ne_zero h0)
          omega
        have hrec := ih (a := b % a) (b := a) hmod
        have hgcd : Nat.gcd a b = Nat.gcd (b % a) a := Nat.gcd_rec a b
        have hba : ((b % a : ℕ) : ℤ) = (b : ℤ) - ((b / a : ℕ) : ℤ) * ((a : ℕ) : ℤ) := by
          have h := Nat.mod_add_div b a
          have h' : ((b % a : ℕ) : ℤ) + ((a : ℕ) : ℤ) * ((b / a : ℕ) : ℤ) = ((b : ℕ) : ℤ) := by
            exact_mod_cast congrArg (Nat.cast : ℕ → ℤ) h
          linarith
        simp only [xgcdF, h0, if_false]
        rw [hgcd, ← hrec, hba]
        ring

theorem invm_lt {a m : ℕ} (hm : 0 < m) : invm a m < m := by
  unfold invm
  have hm' : (0 : ℤ) < m := by exact_mod_cast hm
  have h1 : (xgcdF a a m).1 % (m : ℤ) + m ≥ 0 := by
    have := Int.emod_nonneg (xgcdF a a m).1 (by omega : (m : ℤ) ≠ 0)
    omega
  have h2 : ((xgcdF a a m).1 % (m : ℤ) + m) % m < m :=
    Int.emod_lt_of_pos _ hm'
  have h3 : (0 : ℤ) ≤ ((xgcdF a a m).1 % (m : ℤ) + m) % m :=
    Int.emod_nonneg _ (by omega)
  omega

theorem invm_mul_mod {a m : ℕ} (hm : 0 < m) (h : Nat.gcd a m = 1) :
    a * invm a m % m = 1 % m := by
  have hspec := xgcdF_spec (f := a) (a := a) (b := m) le_rfl
  rw [h] at hspec
  set u := (xgcdF a a m).1 with hu
  set v := (xgcdF a a m).2 with hv
  have hm' : (m : ℤ) ≠ 0 := by exact_mod_cast hm.ne'
  have hinv : (invm a m : ℤ) = (u % m + m) % m := by
    unfold invm
    rw [← hu, Int.toNat_of_nonneg (Int.emod_nonneg _ hm')]
  have hwu : (invm a m : ℤ) % m = u % m := by
    rw [hinv, Int.emod_emod_of_dvd _ dvd_rfl, Int.add_emod_self,
      Int.emod_emod_of_dvd _ dvd_rfl]
  have hcong : (a * invm a m : ℤ) % m = (a * u) % m := by
    rw [Int.mul_emod, hwu, ← Int.mul_emod]
  have hau : (a * u : ℤ) % m = 1 % m := by
    have h1 : (a * u : ℤ) = 1 + (m : ℤ) * (-v) := by
      have h2 : (u * a + v * m : ℤ) = 1 := by exact_mod_cast hspec
      linarith
    rw [h1, Int.add_mul_emod_self_left]
  have hfin : (a * invm a m : ℤ) % m = 1 % m := hcong.trans hau
  have hcast : ((a * invm a m % m : ℕ) : ℤ) = ((1 % m : ℕ) : ℤ) := by
    rw [Int.natCast_mod, Int.natCast_mod]
    push_cast
    exact hfin
  exact_mod_cast hcast

/-! ## URL-safe base64 codec

Modelled from the spec §6 (`lib/encoding/base64.js` is not in the sources;
its behaviour is pinned by the repository's Base64 test suite): table
`A-Z a-z 0-9 - _`, no padding on encode, and the decoder rejects any
character outside the table (in particular the padding character) as the
`urlInvalid` test vectors require. -/

def b64Alphabet : List Char :=
  ['A', 'B', 'C', 'D', 'E', 'F', 'G', 'H', 'I', 'J', 'K', 'L', 'M',
   'N', 'O', 'P', 'Q', 'R', 'S', 'T', 'U', 'V', 'W', 'X', 'Y', 'Z',
   'a', 'b', 'c', 'd', 'e', 'f', 'g', 'h', 'i', 'j', 'k', 'l', 'm',
   'n', 'o', 'p', 'q', 'r', 's', 't', 'u', 'v', 'w', 'x', 'y', 'z',
   '0', '1', '2', '3', '4', '5', '6', '7', '8', '9', '-', '_']

def b64Char (n : ℕ) : Char := b64Alphabet.getD n '!'

def b64Val (c : Char) : Option ℕ :=
  let i := b64Alphabet.indexOf c
  if i < 64 then some i else none

def encodeURL : List ℕ → List Char
  | [] => []
  | [a] => [b64Char (a / 4), b64Char (a % 4 * 16)]
  | [a, b] => [b64Char (a / 4), b64Char (a % 4 * 16 + b / 16), b64Char (b % 16 * 4)]
  | a :: b :: c :: rest =>
      b64Char (a / 4) :: b64Char (a % 4 * 16 + b / 16) ::
        b64Char (b % 16 * 4 + c / 64) :: b64Char (c % 64) :: encodeURL rest

def decodeURL : List Char → Option (List ℕ)
  | [] => some []
  | [_] => none
  | [w, x] =>
      match b64Val w, b64Val x with
      | some a, some b => some [a * 4 + b / 16]
      | _, _ => none
  | [w, x, y] =>
      match b64Val w, b64Val x, b64Val y with
      | some a, some b, some c => some [a * 4 + b / 16, b % 16 * 16 + c / 4]
      | _, _, _ => none
  | w :: x :: y :: z :: rest =>
      match b64Val w, b64Val x, b64Val y, b64Val z, decodeURL rest with
      | some a, some b, some c, some d, some tl =>
          some ((a * 4 + b / 16) :: (b % 16 * 16 + c / 4) :: (c % 4 * 64 + d) :: tl)
      | _, _, _, _, _ => none

/-! ## DSA key value objects (`lib/internal/dsakey.js`)

The classes are thin containers of big-endian field buffers.  Constructors
and setters apply `trimLeft`; `fromJSON` stores the base64url-decoded
bytes as-is (`this.p = base64.decodeURL(json.p)`, without trimming). -/

structure DSAParams where
  p : List ℕ
  q : List ℕ
  g : List ℕ
deriving DecidableEq

structure DSAPublicKey where
  p : List ℕ
  q : List ℕ
  g : List ℕ
  y : List ℕ
deriving DecidableEq

structure DSAPrivateKey where
  p : List ℕ
  q : List ℕ
  g : List ℕ
  y : List ℕ
  x : List ℕ
deriving DecidableEq

/-- The constructor `new DSAParams(p, q, g)`. -/
def DSAParams.make (p q g : List ℕ) : DSAParams :=
  ⟨trimLeft p, trimLeft q, trimLeft g⟩

def DSAParams.setP (k : DSAParams) (p : List ℕ) : DSAParams :=
  { k with p := trimLeft p }

def DSAParams.setQ (k : DSAParams) (q : List ℕ) : DSAParams :=
  { k with q := trimLeft q }

def DSAParams.setG (k : DSAParams) (g : List ℕ) : DSAParams :=
  { k with g := trimLeft g }

def DSAParams.N (k : DSAParams) : ℕ := countLeft k.q

def DSAParams.size (k : DSAParams) : ℕ := (k.N + 7) / 8

/-- The JSON emitter: url-safe base64 of each field buffer. -/
def DSAParams.toJSON (k : DSAParams) : List Char × List Char × List Char :=
  (encodeURL k.p, encodeURL k.q, encodeURL k.g)

/-- The `fromJSON` method: each field is set to the raw decoded bytes
(no `trimLeft`), failing if any field fails to decode. -/
def DSAParams.fromJSON (jp jq jg : List Char) : Option DSAParams :=
  match decodeURL jp, decodeURL jq, decodeURL jg with
  | some p, some q, some g => some ⟨p, q, g⟩
  | _, _, _ => none

/-- The constructor `new DSAPrivateKey(p, q, g, y, x)`. -/
def DSAPrivateKey.make (p q g y x : List ℕ) : DSAPrivateKey :=
  ⟨trimLeft p, trimLeft q, trimLeft g, trimLeft y, trimLeft x⟩

def DSAPrivateKey.setY (k : DSAPrivateKey) (y : List ℕ) : DSAPrivateKey :=
  { k with y := trimLeft y }

def DSAPrivateKey.setX (k : DSAPrivateKey) (x : List ℕ) : DSAPrivateKey :=
  { k with x := trimLeft x }

/-- `setParams` (= `fromParams`): copies the already-trimmed params fields. -/
def DSAPrivateKey.setParams (k : DSAPrivateKey) (params : DSAParams) : DSAPrivateKey :=
  { k with p := params.p, q := params.q, g := params.g }

/-- `DSAPrivateKey.prototype.toPublic`: copies the four public fields. -/
def DSAPrivateKey.toPublic (k : DSAPrivateKey) : DSAPublicKey :=
  ⟨k.p, k.q, k.g, k.y⟩

def DSAPrivateKey.size (k : DSAPrivateKey) : ℕ := (countLeft k.q + 7) / 8

/-- `DSAPrivateKey.prototype.fromJSON`: `p`, `q`, `g`, `x` are always
decoded; `y` is decoded only when present in the JSON, otherwise the
field keeps its previous value. -/
def DSAPrivateKey.fromJSON (k : DSAPrivateKey) (jp jq jg : List Char)
    (jy : Option (List Char)) (jx : List Char) : Option DSAPrivateKey :=
  match decodeURL jp, decodeURL jq, decodeURL jg with
  | some p, some q, some g =>
      match jy with
      | none =>
          match decodeURL jx with
          | some x => some ⟨p, q, g, k.y, x⟩
          | none => none
      | some jy' =>
          match decodeURL jy', decodeURL jx with
          | some y, some x => some ⟨p, q, g, y, x⟩
          | _, _ => none
  | _, _, _ => none

/-- A buffer is canonical when it has no leading zero byte (the empty
buffer is canonical zero). -/
def canonicalBuf : List ℕ → Bool
  | [] => true
  | b :: _ => b != 0

/-! ## The DSA engine (`lib/js/dsa.js`)

Randomness (`random.randomFill`) is modelled as an explicit stream of byte
buffers, one per `randomFill` call; `probablyPrime` (from
`lib/internal/primes.js`, not in the sources) is modelled as an oracle
`pp : ℕ → Bool`. -/

inductive DsaError where
  | invalidKey
  | signatureFailed
  | entropyExhausted
  | rangeError
  | invalidSizes
  | assertFailed
  | noInverse
deriving DecidableEq

/-- The inner rejection-sampling loop of `sign`: draw byte buffers until
the value is nonzero and below `q`.  Running out of stream models a run of
the unbounded loop that never terminates. -/
def sampleK (q : ℕ) : List (List ℕ) → Option (ℕ × List (List ℕ))
  | [] => none
  | buf :: rest =>
      let k := bn buf
      if k ≠ 0 ∧ k < q then some (k, rest) else sampleK q rest

/-- One `(k, r, s)` attempt of `sign`: `ki = fermatInverse(k, q)`,
`r = (g^k mod p) mod q`, `s = ((x·r + z) mod q · ki) mod q`; the attempt
fails when `r = 0` or `s = 0`. -/
def signAttempt (p q g x z k : ℕ) : Option (ℕ × ℕ) :=
  let ki := modPow k (q - 2) q
  let r := modPow g k p % q
  if r = 0 then none
  else
    let s := (x * r + z) % q * ki % q
    if s = 0 then none else some (r, s)

/-- The retry loop of `sign` (`for (; attempts > 0; attempts--)`). -/
def signLoop (p q g x z : ℕ) : ℕ → List (List ℕ) → Except DsaError (ℕ × ℕ)
  | 0, _ => .error .signatureFailed
  | attempts + 1, stream =>
      match sampleK q stream with
      | none => .error .entropyExhausted
      | some (k, rest) =>
          match signAttempt p q g x z k with
          | none => signLoop p q g x z attempts rest
          | some rs => .ok rs

/-- The successive accepted `k` samples drawn by up to `fuel` attempts. -/
def acceptedKs (q : ℕ) : ℕ → List (List ℕ) → List ℕ
  | 0, _ => []
  | fuel + 1, stream =>
      match sampleK q stream with
      | none => []
      | some (k, rest) => k :: acceptedKs q fuel rest

/-- `dsa.sign(msg, key)`: validates the key (positive `q`, `p`, `g`, `x`
and `bitLength(q)` divisible by 8), runs the retry loop with 10 attempts,
and emits `r` and `s` left-padded to `key.size()` bytes (the padding is
`DSASignature`'s `setR`/`setS`; `lib/internal/dsasig.js` is not in the
sources, its fixed-width encoding is modelled from the spec §3). -/
def dsaSign (msg : List ℕ) (key : DSAPrivateKey) (stream : List (List ℕ)) :
    Except DsaError (List ℕ × List ℕ) :=
  let pn := bn key.p
  let qn := bn key.q
  let gn := bn key.g
  let xn := bn key.x
  let n := bitLen qn
  if qn = 0 ∨ pn = 0 ∨ gn = 0 ∨ xn = 0 ∨ n % 8 ≠ 0 then .error .invalidKey
  else
    match signLoop pn qn gn xn (bn msg) 10 stream with
    | .error e => .error e
    | .ok (r, s) => .ok (leftPad (toBuffer r) key.size, leftPad (toBuffer s) key.size)

/-- Modular inverse step `sn.invm(qn)`; per the spec §4.1 the modular
inverse fails ("no inverse") when `gcd ≠ 1`, and `verify` does not guard
that call, so the failure propagates. -/
def invmE (a m : ℕ) : Except DsaError ℕ :=
  if Nat.gcd a m = 1 then .ok (invm a m) else .error .noInverse

/-- `dsa.verify(msg, sig, key)` with every possibly-failing step explicit:
`.ok b` is a normal boolean return, `.error` a thrown error. -/
def dsaVerify (msg : List ℕ) (sig : List ℕ × List ℕ) (key : DSAPublicKey) :
    Except DsaError Bool :=
  let pn := bn key.p
  let qn := bn key.q
  let gn := bn key.g
  let yn := bn key.y
  let rn := bn sig.1
  let sn := bn sig.2
  if pn = 0 then .ok false
  else if rn = 0 ∨ qn ≤ rn then .ok false
  else if sn = 0 ∨ qn ≤ sn then .ok false
  else
    match invmE sn qn with
    | .error e => .error e
    | .ok w =>
        if bitLen qn % 8 ≠ 0 then .ok false
        else
          let z := bn msg
          let u1 := z * w % qn
          let u2 := rn * w % qn
          let v := modPow gn u1 pn * modPow yn u2 pn % pn % qn
          .ok (v == rn)

/-- OR a mask into the first byte of a buffer (`buf[0] |= m`). -/
def orFirst (m : ℕ) : List ℕ → List ℕ
  | [] => []
  | b :: rest => (b ||| m) :: rest

/-- OR a mask into the last byte of a buffer (`buf[buf.length - 1] |= m`). -/
def orLast (m : ℕ) : List ℕ → List ℕ
  | [] => []
  | [b] => [b ||| m]
  | b :: rest => b :: orLast m rest

/-- The inner `for (let i = 0; i < 4 * L; i++)` candidate search for `p`:
draw an `L/8`-byte buffer, set its top and bottom bits, and replace the
candidate by `pcand - (pcand mod q - 1)` so that `q` divides `p - 1`
(over ℕ this is `pcand + 1 - pcand % q`).  Returns the found prime and
the unconsumed stream. -/
def pSearch (pp : ℕ → Bool) (L qn : ℕ) : ℕ → List (List ℕ) → Option ℕ × List (List ℕ)
  | 0, ps => (none, ps)
  | i + 1, ps =>
      match ps with
      | [] => (none, [])
      | pb :: rest =>
          let pcand := bn (orFirst 128 (orLast 1 pb))
          let pn := pcand + 1 - pcand % qn
          if bitLen pn < L then pSearch pp L qn i rest
          else if pp pn then (some pn, rest)
          else pSearch pp L qn i rest

/-- The outer `generate:` loop: draw an `N/8`-byte buffer for `q`, set its
top and bottom bits, require `probablyPrime`, then search for `p`. -/
def pqSearch (pp : ℕ → Bool) (L : ℕ) : List (List ℕ) → List (List ℕ) → Option (ℕ × ℕ)
  | [], _ => none
  | qb :: qrest, ps =>
      let qn := bn (orFirst 128 (orLast 1 qb))
      if pp qn then
        match pSearch pp L qn (4 * L) ps with
        | (some pn, _) => some (pn, qn)
        | (none, ps') => pqSearch pp L qrest ps'
      else pqSearch pp L qrest ps

/-- The generator search: `h` starts at 2, `e = (p - 1) / q`,
`g = h^e mod p`, retrying with `h + 1` while `g = 1`. -/
def gSearch (p e : ℕ) : ℕ → ℕ → Option ℕ
  | 0, _ => none
  | fuel + 1, h =>
      let g := modPow h e p
      if g = 1 then gSearch p e fuel (h + 1) else some g

/-- The body of `generate(L, N)` after its parameter-size check: the
`(p, q)` search followed by the generator search; the params fields are
the minimal big-endian serialisations of the found values.  `qs` and `ps`
are the random `N/8`- and `L/8`-byte buffers the two searches consume. -/
def generateCore (pp : ℕ → Bool) (L : ℕ) (qs ps : List (List ℕ)) (gfuel : ℕ) :
    Option DSAParams :=
  match pqSearch pp L qs ps with
  | none => none
  | some (pn, qn) =>
      match gSearch pn ((pn - 1) / qn) gfuel 2 with
      | none => none
      | some gn => some ⟨toBuffer pn, toBuffer qn, toBuffer gn⟩

/-- `generate(L, N)`: rejects any `(L, N)` outside the four allowed pairs
with an `Invalid parameter sizes` error, then runs the search.  A `.ok
none` result models a search run that never terminates (exhausted
stream/fuel), which is not an error in the source. -/
def generate (pp : ℕ → Bool) (L N : ℕ) (qs ps : List (List ℕ)) (gfuel : ℕ) :
    Except DsaError (Option DSAParams) :=
  if (L = 1024 ∧ N = 160) ∨ (L = 2048 ∧ N = 224) ∨ (L = 2048 ∧ N = 256)
      ∨ (L = 3072 ∧ N = 256) then
    .ok (generateCore pp L qs ps gfuel)
  else .error .invalidSizes

/-- `dsa.paramsGenerate(bits)`: asserts `(bits >>> 0) === bits`, requires
`1024 ≤ bits ≤ 3072`, and calls `generate(L, N)` with `L = bits` and
`N = 160` when `bits < 2048`, else `N = 256`. -/
def paramsGenerate (pp : ℕ → Bool) (bits : ℕ) (qs ps : List (List ℕ)) (gfuel : ℕ) :
    Except DsaError (Option DSAParams) :=
  if 2 ^ 32 ≤ bits then .error .assertFailed
  else if bits < 1024 ∨ 3072 < bits then .error .rangeError
  else generate pp bits (if bits < 2048 then 160 else 256) qs ps gfuel

/-! ## The native DSA entry points (`src/dsa/dsa.c`)

Only the input gates are embedded; everything behind them (OpenSSL's
`DSA_do_sign` / `DSA_do_verify` and the key conversions) is an external
collaborator and is abstracted as an explicit continuation. -/

structure BcryptoDsaKey where
  pd : List ℕ
  qd : List ℕ
  gd : List ℕ
  yd : List ℕ
  xd : List ℕ
deriving DecidableEq

/-- `bcrypto_dsa_sane_params`. -/
def bcryptoDsaSaneParams (k : BcryptoDsaKey) : Bool :=
  let pb := countLeft k.pd
  let qb := countLeft k.qd
  let gb := countLeft k.gd
  if pb < 1024 ∨ 3072 < pb then false
  else if qb ≠ 160 ∧ qb ≠ 224 ∧ qb ≠ 256 then false
  else if gb = 0 ∨ pb < gb then false
  else true

/-- `bcrypto_dsa_sane_pubkey`. -/
def bcryptoDsaSanePubkey (k : BcryptoDsaKey) : Bool :=
  if ¬ bcryptoDsaSaneParams k then false
  else
    let pb := countLeft k.pd
    let yb := countLeft k.yd
    if yb = 0 ∨ pb < yb then false
    else true

/-- `bcrypto_dsa_sane_privkey`. -/
def bcryptoDsaSanePrivkey (k : BcryptoDsaKey) : Bool :=
  if ¬ bcryptoDsaSanePubkey k then false
  else
    let qb := countLeft k.qd
    let xb := countLeft k.xd
    if xb = 0 ∨ qb < xb then false
    else true

/-- `bcrypto_dsa_subprime_size`. -/
def bcryptoDsaSubprimeSize (k : BcryptoDsaKey) : ℕ := (countLeft k.qd + 7) / 8

/-- `bcrypto_dsa_sign`: fails on `msg_len < 1 || msg_len > 64`, then on an
insane private key; the OpenSSL signing path is the continuation
`doSign`. -/
def bcryptoDsaSign (doSign : List ℕ → BcryptoDsaKey → Option (List ℕ × List ℕ))
    (msg : List ℕ) (priv : BcryptoDsaKey) : Option (List ℕ × List ℕ) :=
  if msg.length < 1 ∨ 64 < msg.length then none
  else if ¬ bcryptoDsaSanePrivkey priv then none
  else doSign msg priv

/-- `bcrypto_dsa_verify`: returns false on `msg_len < 1 || msg_len > 64`,
on `r`/`s` lengths different from the subprime size, and on an insane
public key; the OpenSSL verification path is the continuation
`doVerify`. -/
def bcryptoDsaVerify (doVerify : List ℕ → List ℕ → List ℕ → BcryptoDsaKey → Bool)
    (msg r s : List ℕ) (pub : BcryptoDsaKey) : Bool :=
  if msg.length < 1 ∨ 64 < msg.length then false
  else
    let qsize := bcryptoDsaSubprimeSize pub
    if r.length ≠ qsize then false
    else if s.length ≠ qsize then false
    else if ¬ bcryptoDsaSanePubkey pub then false
    else doVerify msg r s pub

/-! ## The RSA wrappers (`lib/native/rsa.js`)

The DER decoders (`lib/internal/rsakey.js`) and the native binding are
externals; they are abstracted as an `Except`-valued decoder and total
boolean binding calls, per the spec contracts (§4.4, §7: the binding's
verify operations return booleans). -/

/-- `rsa.verify(hash, msg, sig, key)`: `RSAPublicKey.decode` inside
`try { } catch` returning `false`, then `rsa.verifyKey` calling
`binding.verify`. -/
def rsaVerify {K : Type} (decodePub : List ℕ → Except Unit K)
    (bindingVerify : List Char → List ℕ → List ℕ → K → Bool)
    (hashId : List Char) (msg sig key : List ℕ) : Except Unit Bool :=
  match decodePub key with
  | .error _ => .ok false
  | .ok k => .ok (bindingVerify hashId msg sig k)

/-- `rsa.publicKeyVerify(key)`: decode under `try`/`catch`, then
`binding.publicKeyVerify`. -/
def rsaPublicKeyVerify {K : Type} (decodePub : List ℕ → Except Unit K)
    (bindingPub : K → Bool) (key : List ℕ) : Except Unit Bool :=
  match decodePub key with
  | .error _ => .ok false
  | .ok k => .ok (bindingPub k)

/-- `rsa.privateKeyVerify(key)`: decode under `try`/`catch`, then
`binding.privateKeyVerify`. -/
def rsaPrivateKeyVerify {K : Type} (decodePriv : List ℕ → Except Unit K)
    (bindingPriv : K → Bool) (key : List ℕ) : Except Unit Bool :=
  match decodePriv key with
  | .error _ => .ok false
  | .ok k => .ok (bindingPriv k)

/-! ## Shared helper lemmas -/

theorem zmod_natCast_mod (a q : ℕ) : ((a % q : ℕ) : ZMod q) = (a : ZMod q) :=
  (ZMod.natCast_eq_natCast_iff _ _ _).mpr (Nat.mod_modEq a q)

theorem canonicalBuf_trimLeft (l : List ℕ) : canonicalBuf (trimLeft l) = true := by
  induction l with
  | nil => rfl
  | cons b rest ih =>
      by_cases hb : b = 0
      · simpa [trimLeft, List.dropWhile_cons, hb] using ih
      · simp [trimLeft, List.dropWhile_cons, hb, canonicalBuf]

theorem b64Val_b64Char : ∀ n < 64, b64Val (b64Char n) = some n := by decide

theorem bitLen_eq_of_bounds {n k : ℕ} (hk : 0 < k) (hlo : 2 ^ (k - 1) ≤ n)
    (hhi : n < 2 ^ k) : bitLen n = k := by
  have h1 : bitLen n ≤ k := bitLen_le.mpr hhi
  have h2 : k - 1 < bitLen n := lt_bitLen.mpr hlo
  omega

theorem pow256_eq (n : ℕ) : (256 : ℕ) ^ n = 2 ^ (8 * n) := by
  rw [show (256 : ℕ) = 2 ^ 8 from rfl, ← pow_mul]

theorem countLeft_eq_bitLen {l : List ℕ} (h : ∀ x ∈ l, x < 256) :
    countLeft l = bitLen (bn l) := by
  induction l with
  | nil => rfl
  | cons b rest ih =>
      have hrest : ∀ x ∈ rest, x < 256 := fun x hx => h x (List.mem_cons_of_mem b hx)
      by_cases hb : b = 0
      · subst hb
        simpa [countLeft, bn] using ih hrest
      · have hbl : 0 < bitLen b := by
          rw [lt_bitLen]
          simpa using Nat.pos_of_ne_zero hb
        have hbhi : b < 2 ^ bitLen b := bitLen_lt b
        have hblo : 2 ^ (bitLen b - 1) ≤ b := by
          have h2 := lt_bitLen (n := b) (m := bitLen b - 1)
          omega
        have hrlt : bn rest < 256 ^ rest.length := bn_lt_pow hrest
        have hcl : countLeft (b :: rest) = 8 * rest.length + bitLen b := by
          simp [countLeft, hb]
        have hbn : bn (b :: rest) = b * 256 ^ rest.length + bn rest := rfl
        rw [hcl, hbn]
        refine (bitLen_eq_of_bounds (by omega) ?_ ?_).symm
        · have hk1 : 8 * rest.length + bitLen b - 1 = (bitLen b - 1) + 8 * rest.length := by
            omega
          rw [hk1, pow_add, ← pow256_eq]
          have : 2 ^ (bitLen b - 1) * 256 ^ rest.length ≤ b * 256 ^ rest.length :=
            Nat.mul_le_mul_right _ hblo
          omega
        · rw [pow_add, ← pow256_eq]
          have h2 : (b + 1) * 256 ^ rest.length ≤ 2 ^ bitLen b * 256 ^ rest.length :=
            Nat.mul_le_mul_right _ (by omega)
          have e1 : 2 ^ bitLen b * 256 ^ rest.length = 256 ^ rest.length * 2 ^ bitLen b :=
            mul_comm _ _
          have e2 : (b + 1) * 256 ^ rest.length
              = b * 256 ^ rest.length + 256 ^ rest.length := by ring
          linarith [hrlt]

theorem bn_lt_two_pow_countLeft {l : List ℕ} (h : ∀ x ∈ l, x < 256) :
    bn l < 2 ^ countLeft l := by
  rw [countLeft_eq_bitLen h]
  exact bitLen_lt _

theorem toBuffer_length_le {n m : ℕ} (hm : 0 < m) (h : n < 256 ^ m) :
    (toBuffer n).length ≤ m := by
  by_cases h0 : n = 0
  · simp [toBuffer, h0]
    omega
  · simp only [toBuffer, h0, if_false]
    exact beBytesF_length_le le_rfl h

theorem leftPad_length {l : List ℕ} {sz : ℕ} (h : l.length ≤ sz) :
    (leftPad l sz).length = sz := by
  simp [leftPad]
  omega

theorem sampleK_bounds {q : ℕ} :
    ∀ {stream : List (List ℕ)} {k : ℕ} {rest : List (List ℕ)},
      sampleK q stream = some (k, rest) → 0 < k ∧ k < q := by
  intro stream
  induction stream with
  | nil => intro k rest h; simp [sampleK] at h
  | cons buf tl ih =>
      intro k rest h
      simp only [sampleK] at h
      by_cases hc : bn buf ≠ 0 ∧ bn buf < q
      · rw [if_pos hc] at h
        have h' : bn buf = k ∧ tl = rest := by simpa using h
        obtain ⟨rfl, rfl⟩ := h'
        omega
      · rw [if_neg hc] at h
        exact ih h

theorem signLoop_ok {p q g x z : ℕ} :
    ∀ {fuel : ℕ} {stream : List (List ℕ)} {r s : ℕ},
      signLoop p q g x z fuel stream = .ok (r, s) →
      ∃ k, 0 < k ∧ k < q ∧ signAttempt p q g x z k = some (r, s) := by
  intro fuel
  induction fuel with
  | zero => intro stream r s h; simp [signLoop] at h
  | succ fuel ih =>
      intro stream r s h
      rcases hk : sampleK q stream with _ | ⟨k, rest⟩
      · simp only [signLoop, hk] at h
        exact Except.noConfusion h
      · simp only [signLoop, hk] at h
        rcases ha : signAttempt p q g x z k with _ | rs
        · simp only [ha] at h
          exact ih h
        · simp only [ha] at h
          obtain ⟨hk0, hkq⟩ := sampleK_bounds hk
          refine ⟨k, hk0, hkq, ?_⟩
          rw [ha]
          simpa using h

theorem signLoop_all_fail {p q g x z : ℕ} :
    ∀ (fuel : ℕ) (stream : List (List ℕ)),
      (acceptedKs q fuel stream).length = fuel →
      (∀ k ∈ acceptedKs q fuel stream, signAttempt p q g x z k = none) →
      signLoop p q g x z fuel stream = .error .signatureFailed := by
  intro fuel
  induction fuel with
  | zero => intro stream _ _; rfl
  | succ fuel ih =>
      intro stream hlen hfail
      rcases hk : sampleK q stream with _ | ⟨k, rest⟩
      · simp only [acceptedKs, hk, List.length_nil] at hlen
        exact absurd hlen (by omega)
      · simp only [acceptedKs, hk] at hlen hfail
        have hknone : signAttempt p q g x z k = none :=
          hfail k (List.mem_cons_self _ _)
        simp only [signLoop, hk, hknone]
        exact ih rest (by simpa using hlen) fun k' hk' =>
          hfail k' (List.mem_cons_of_mem _ hk')

/-- Exponents of an element satisfying `g ^ q % p = 1` only matter mod `q`. -/
theorem pow_mod_congr {p g q : ℕ} (hp : 2 ≤ p) (hq : 0 < q)
    (hg : g ^ q % p = 1) {a b : ℕ} (hab : a ≡ b [MOD q]) :
    g ^ a % p = g ^ b % p := by
  have key : ∀ c : ℕ, g ^ c % p = g ^ (c % q) % p := by
    intro c
    conv_lhs => rw [show c = q * (c / q) + c % q from (Nat.div_add_mod c q).symm]
    rw [pow_add, pow_mul, Nat.mul_mod, Nat.pow_mod (g ^ q), hg, one_pow,
      Nat.one_mod_eq_one.mpr (by omega), one_mul, Nat.mod_mod_of_dvd _ dvd_rfl]
  rw [key a, key b, hab]

/-! ## Claim theorems -/

/-- C5: for every DSA key and signature, `verify` returns false whenever
`r = 0`, `s = 0`, `r ≥ q` or `s ≥ q` (with `r`, `s`, `q` the values of the
corresponding buffers): the range guards run before any arithmetic and
return `false` without raising. -/
theorem dsaVerify_rejects_out_of_range (msg : List ℕ) (sig : List ℕ × List ℕ)
    (key : DSAPublicKey)
    (h : bn sig.1 = 0 ∨ bn sig.2 = 0 ∨ bn key.q ≤ bn sig.1 ∨ bn key.q ≤ bn sig.2) :
    dsaVerify msg sig key = .ok false := by
  by_cases hp : bn key.p = 0
  · simp [dsaVerify, hp]
  · by_cases hr : bn sig.1 = 0 ∨ bn key.q ≤ bn sig.1
    · simp [dsaVerify, hp, hr]
    · have hs : bn sig.2 = 0 ∨ bn key.q ≤ bn sig.2 := by tauto
      simp [dsaVerify, hp, hr, hs]

/-- C5 witness: a concrete zero `r` is rejected. -/
theorem dsaVerify_rejects_out_of_range_witness :
    dsaVerify [1] ([0], [5]) ⟨[7], [11], [2], [3]⟩ = .ok false :=
  dsaVerify_rejects_out_of_range [1] ([0], [5]) ⟨[7], [11], [2], [3]⟩ (by decide)

/-- C10: the native DSA entry points reject message lengths outside
`[1, 64]` bytes before touching the key or signature: `bcrypto_dsa_sign`
fails and `bcrypto_dsa_verify` returns false, whatever the OpenSSL
continuations, key and signature are. -/
theorem bcryptoDsa_msg_length_gate
    (doSign : List ℕ → BcryptoDsaKey → Option (List ℕ × List ℕ))
    (doVerify : List ℕ → List ℕ → List ℕ → BcryptoDsaKey → Bool)
    (msg r s : List ℕ) (priv pub : BcryptoDsaKey)
    (h : msg.length = 0 ∨ 64 < msg.length) :
    bcryptoDsaSign doSign msg priv = none ∧
    bcryptoDsaVerify doVerify msg r s pub = false := by
  have h1 : msg.length < 1 ∨ 64 < msg.length := by omega
  constructor
  · unfold bcryptoDsaSign
    rw [if_pos h1]
  · unfold bcryptoDsaVerify
    rw [if_pos h1]

/-- C10 witness: the empty message is rejected by both entry points. -/
theorem bcryptoDsa_msg_length_gate_witness :
    bcryptoDsaSign (fun _ _ => some ([], [])) [] ⟨[], [], [], [], []⟩ = none ∧
    bcryptoDsaVerify (fun _ _ _ _ => true) [] [] [] ⟨[], [], [], [], []⟩ = false :=
  bcryptoDsa_msg_length_gate _ _ [] [] [] _ _ (Or.inl rfl)

/-- C2 counterexample: `bits = 1536` lies in `[1024, 3072]`, yet
`paramsGenerate` fails with the `Invalid parameter sizes` error, because
`generate(L, N)` only accepts `(1024, 160)`, `(2048, 224)`, `(2048, 256)`
and `(3072, 256)` and the mapping produces `(1536, 160)`. -/
theorem paramsGenerate_midrange_size_error :
    paramsGenerate (fun _ => false) 1536 [] [] 0 = .error .invalidSizes := by rfl

/-- C2 (amended): `paramsGenerate(bits)` maps `bits` to `(L, N) = (bits,
160)` for `bits < 2048` and `(bits, 256)` otherwise, and survives the
parameter-size check only for `bits ∈ {1024, 2048, 3072}`; every other
`bits` in `[1024, 3072]` fails with the parameter-size error, and `bits`
outside `[1024, 3072]` fails the `uint32` assertion or the range check. -/
theorem paramsGenerate_size_mapping (pp : ℕ → Bool) (bits : ℕ)
    (qs ps : List (List ℕ)) (gfuel : ℕ) :
    (bits = 1024 ∨ bits = 2048 ∨ bits = 3072 →
      paramsGenerate pp bits qs ps gfuel =
        generate pp bits (if bits < 2048 then 160 else 256) qs ps gfuel ∧
      generate pp bits (if bits < 2048 then 160 else 256) qs ps gfuel =
        .ok (generateCore pp bits qs ps gfuel)) ∧
    (1024 ≤ bits → bits ≤ 3072 → ¬(bits = 1024 ∨ bits = 2048 ∨ bits = 3072) →
      paramsGenerate pp bits qs ps gfuel = .error .invalidSizes) ∧
    (bits < 1024 ∨ 3072 < bits →
      paramsGenerate pp bits qs ps gfuel =
        if 2 ^ 32 ≤ bits then .error .assertFailed else .error .rangeError) := by
  refine ⟨?_, ?_, ?_⟩
  · rintro (rfl | rfl | rfl) <;> exact ⟨by norm_num [paramsGenerate], by norm_num [generate]⟩
  · intro h1 h2 h3
    have hN : ¬((bits = 1024 ∧ (if bits < 2048 then 160 else 256) = 160) ∨
        (bits = 2048 ∧ (if bits < 2048 then 160 else 256) = 224) ∨
        (bits = 2048 ∧ (if bits < 2048 then 160 else 256) = 256) ∨
        (bits = 3072 ∧ (if bits < 2048 then 160 else 256) = 256)) := by
      tauto
    unfold paramsGenerate
    rw [if_neg (by omega), if_neg (by omega)]
    unfold generate
    rw [if_neg hN]
  · intro h
    unfold paramsGenerate
    by_cases h32 : 2 ^ 32 ≤ bits
    · rw [if_pos h32, if_pos h32]
    · rw [if_neg h32, if_pos (by omega), if_neg h32]

/-- C2 witness: `bits = 2048` passes both validations with `N = 256`;
`bits = 512` is rejected by the range check. -/
theorem paramsGenerate_size_mapping_witness :
    paramsGenerate (fun _ => true) 2048 [] [] 0 =
      .ok (generateCore (fun _ => true) 2048 [] [] 0) ∧
    paramsGenerate (fun _ => true) 512 [] [] 0 = .error .rangeError := by
  constructor
  · have h := (paramsGenerate_size_mapping (fun _ => true) 2048 [] [] 0).1
      (Or.inr (Or.inl rfl))
    exact h.1.trans h.2
  · have h := (paramsGenerate_size_mapping (fun _ => true) 512 [] [] 0).2.2
      (Or.inl (by norm_num))
    simpa using h

/-- C8 counterexample: the URL-safe decoder rejects the padded form.
`encodeURL [0x66] = "Zg"` decodes back to `[0x66]`, but appending the
"=" padding makes decoding fail (`'='` is outside the URL-safe table),
exactly as the `urlInvalid` test vectors require. -/
theorem decodeURL_rejects_padding :
    decodeURL (encodeURL [102] ++ ['=', '=']) = none ∧
    decodeURL (encodeURL [102]) = some [102] := by decide

/-- The URL-safe base64 round trip on unpadded encodings. -/
theorem decodeURL_encodeURL (b : List ℕ) (h : ∀ x ∈ b, x < 256) :
    decodeURL (encodeURL b) = some b := by
  induction b using encodeURL.induct with
  | case1 => rfl
  | case2 a =>
      have ha : a < 256 := h a (by simp)
      have h1 : a / 4 < 64 := by omega
      have h2 : a % 4 * 16 < 64 := by omega
      simp only [encodeURL, decodeURL, b64Val_b64Char _ h1, b64Val_b64Char _ h2]
      congr 2
      omega
  | case3 a b' =>
      have ha : a < 256 := h a (by simp)
      have hb : b' < 256 := h b' (by simp)
      have h1 : a / 4 < 64 := by omega
      have h2 : a % 4 * 16 + b' / 16 < 64 := by omega
      have h3 : b' % 16 * 4 < 64 := by omega
      simp only [encodeURL, decodeURL, b64Val_b64Char _ h1, b64Val_b64Char _ h2,
        b64Val_b64Char _ h3]
      congr 2
      · omega
      · congr 1
        omega
  | case4 a b' c rest ih =>
      have ha : a < 256 := h a (by simp)
      have hb : b' < 256 := h b' (by simp)
      have hc : c < 256 := h c (by simp)
      have hrest : ∀ x ∈ rest, x < 256 := fun x hx => h x (by simp [hx])
      have h1 : a / 4 < 64 := by omega
      have h2 : a % 4 * 16 + b' / 16 < 64 := by omega
      have h3 : b' % 16 * 4 + c / 64 < 64 := by omega
      have h4 : c % 64 < 64 := by omega
      simp only [encodeURL, decodeURL, b64Val_b64Char _ h1, b64Val_b64Char _ h2,
        b64Val_b64Char _ h3, b64Val_b64Char _ h4, ih hrest]
      congr 2
      · omega
      · congr 1
        · omega
        · congr 1
          omega

/-- C8 (amended): the URL-safe base64 codec round-trips on unpadded
encodings: for every byte buffer `b`, `decodeURL (encodeURL b) = some b`
(padded forms are rejected, per the counterexample). -/
theorem decodeURL_encodeURL_roundtrip (b : List ℕ) (h : ∀ x ∈ b, x < 256) :
    decodeURL (encodeURL b) = some b :=
  decodeURL_encodeURL b h

/-- C8 witness: the round-trip at the RFC 4648 vector `0x53e9363b2962fcaf`. -/
theorem decodeURL_encodeURL_roundtrip_witness :
    decodeURL (encodeURL [0x53, 0xe9, 0x36, 0x3b, 0x29, 0x62, 0xfc, 0xaf]) =
      some [0x53, 0xe9, 0x36, 0x3b, 0x29, 0x62, 0xfc, 0xaf] :=
  decodeURL_encodeURL_roundtrip _ (by decide)

/-- C4 counterexample: DSA `verify` can propagate an error on an
untrusted key.  With `q = 9` and `s = 3` the range guards pass
(`0 < 3 < 9`), but `s` is not invertible modulo the composite `q`, so the
unguarded `sn.invm(qn)` call fails and the failure escapes `verify`
instead of yielding `false`. -/
theorem dsaVerify_raises_on_noninvertible :
    dsaVerify [1] ([1], [3]) ⟨[5], [9], [1], [1]⟩ = .error .noInverse := by rfl

/-- C4 (amended): the verify family never raises, except that DSA
`verify` propagates the modular-inverse failure when `gcd(s, q) ≠ 1`
(possible only for composite `q`): whenever `s` is invertible mod `q`
at the point the inverse is taken, DSA `verify` returns a boolean, and
the RSA `verify`/`publicKeyVerify`/`privateKeyVerify` wrappers return a
boolean on every byte input, converting every decode failure to `false`. -/
theorem verify_family_no_raise :
    (∀ (msg : List ℕ) (sig : List ℕ × List ℕ) (key : DSAPublicKey),
        (0 < bn sig.2 → bn sig.2 < bn key.q → Nat.gcd (bn sig.2) (bn key.q) = 1) →
        ∃ b, dsaVerify msg sig key = .ok b) ∧
    (∀ (K : Type) (decodePub : List ℕ → Except Unit K)
        (bindingVerify : List Char → List ℕ → List ℕ → K → Bool)
        (bindingPub bindingPriv : K → Bool)
        (hashId : List Char) (msg sig key : List ℕ),
        (∃ b, rsaVerify decodePub bindingVerify hashId msg sig key = .ok b) ∧
        (∃ b, rsaPublicKeyVerify decodePub bindingPub key = .ok b) ∧
        (∃ b, rsaPrivateKeyVerify decodePub bindingPriv key = .ok b)) := by
  constructor
  · intro msg sig key hgcd
    by_cases hp : bn key.p = 0
    · exact ⟨false, by simp [dsaVerify, hp]⟩
    · by_cases hr : bn sig.1 = 0 ∨ bn key.q ≤ bn sig.1
      · exact ⟨false, by simp [dsaVerify, hp, hr]⟩
      · by_cases hs : bn sig.2 = 0 ∨ bn key.q ≤ bn sig.2
        · exact ⟨false, by simp [dsaVerify, hp, hr, hs]⟩
        · have hg : Nat.gcd (bn sig.2) (bn key.q) = 1 :=
            hgcd (by omega) (by omega)
          by_cases hn : bitLen (bn key.q) % 8 ≠ 0
          · exact ⟨false, by simp [dsaVerify, hp, hr, hs, invmE, hg, hn]⟩
          · simp [dsaVerify, hp, hr, hs, invmE, hg, hn]
  · intro K decodePub bindingVerify bindingPub bindingPriv hashId msg sig key
    refine ⟨?_, ?_, ?_⟩ <;> {
      rcases hd : decodePub key with e | k
      · exact ⟨false, by simp [rsaVerify, rsaPublicKeyVerify, rsaPrivateKeyVerify, hd]⟩
      · simp [rsaVerify, rsaPublicKeyVerify, rsaPrivateKeyVerify, hd]
    }

/-- C4 witness: a concrete DSA verification with prime `q` returns a
boolean, and the RSA wrappers return booleans for a decoder that always
fails. -/
theorem verify_family_no_raise_witness :
    (∃ b, dsaVerify [1] ([1], [2]) ⟨[7], [11], [3], [4]⟩ = .ok b) ∧
    (∃ b, rsaVerify (fun _ => .error ()) (fun _ _ _ (_ : Unit) => true) [] [] [] [] = .ok b) :=
  ⟨(verify_family_no_raise).1 [1] ([1], [2]) ⟨[7], [11], [3], [4]⟩ (by decide),
   ((verify_family_no_raise).2 Unit (fun _ => .error ()) (fun _ _ _ _ => true)
      (fun _ => true) (fun _ => true) [] [] [] []).1⟩

/-- C9 counterexample: `fromJSON` does not trim.  The JSON field
`"AAE"` decodes to the bytes `[0x00, 0x01]`, and `DSAParams.fromJSON`
stores them as-is, leaving a field buffer with a leading zero byte at
rest. -/
theorem dsaParams_fromJSON_not_canonical :
    DSAParams.fromJSON ['A', 'A', 'E'] ['A', 'Q'] ['A', 'Q'] =
      some ⟨[0, 1], [1], [1]⟩ ∧
    canonicalBuf [0, 1] = false := by decide

/-- C9 (amended): every field buffer assigned through a constructor, a
setter, `setParams` or `toPublic` is canonical at rest (constructors and
setters trim; `setParams` and `toPublic` copy already-canonical buffers);
`fromJSON` stores the decoded JSON bytes untrimmed, so its fields are
canonical exactly when the decoded JSON fields are — in particular
`fromJSON` inverts `toJSON` on canonical keys. -/
theorem dsakey_canonical_at_rest :
    (∀ p q g : List ℕ,
        canonicalBuf (DSAParams.make p q g).p = true ∧
        canonicalBuf (DSAParams.make p q g).q = true ∧
        canonicalBuf (DSAParams.make p q g).g = true) ∧
    (∀ (k : DSAParams) (l : List ℕ),
        canonicalBuf (k.setP l).p = true ∧
        canonicalBuf (k.setQ l).q = true ∧
        canonicalBuf (k.setG l).g = true) ∧
    (∀ p q g y x : List ℕ,
        canonicalBuf (DSAPrivateKey.make p q g y x).p = true ∧
        canonicalBuf (DSAPrivateKey.make p q g y x).q = true ∧
        canonicalBuf (DSAPrivateKey.make p q g y x).g = true ∧
        canonicalBuf (DSAPrivateKey.make p q g y x).y = true ∧
        canonicalBuf (DSAPrivateKey.make p q g y x).x = true) ∧
    (∀ (k : DSAPrivateKey) (l : List ℕ),
        canonicalBuf (k.setY l).y = true ∧ canonicalBuf (k.setX l).x = true) ∧
    (∀ (k : DSAPrivateKey) (params : DSAParams),
        canonicalBuf params.p = true → canonicalBuf params.q = true →
        canonicalBuf params.g = true →
        canonicalBuf (k.setParams params).p = true ∧
        canonicalBuf (k.setParams params).q = true ∧
        canonicalBuf (k.setParams params).g = true) ∧
    (∀ k : DSAPrivateKey,
        canonicalBuf k.p = true → canonicalBuf k.q = true →
        canonicalBuf k.g = true → canonicalBuf k.y = true →
        canonicalBuf k.toPublic.p = true ∧ canonicalBuf k.toPublic.q = true ∧
        canonicalBuf k.toPublic.g = true ∧ canonicalBuf k.toPublic.y = true) ∧
    (∀ k : DSAParams,
        (∀ x ∈ k.p, x < 256) → (∀ x ∈ k.q, x < 256) → (∀ x ∈ k.g, x < 256) →
        DSAParams.fromJSON (encodeURL k.p) (encodeURL k.q) (encodeURL k.g) = some k) := by
  refine ⟨?_, ?_, ?_, ?_, ?_, ?_, ?_⟩
  · exact fun p q g =>
      ⟨canonicalBuf_trimLeft p, canonicalBuf_trimLeft q, canonicalBuf_trimLeft g⟩
  · exact fun k l =>
      ⟨canonicalBuf_trimLeft l, canonicalBuf_trimLeft l, canonicalBuf_trimLeft l⟩
  · exact fun p q g y x =>
      ⟨canonicalBuf_trimLeft p, canonicalBuf_trimLeft q, canonicalBuf_trimLeft g,
       canonicalBuf_trimLeft y, canonicalBuf_trimLeft x⟩
  · exact fun k l => ⟨canonicalBuf_trimLeft l, canonicalBuf_trimLeft l⟩
  · exact fun k params hp hq hg => ⟨hp, hq, hg⟩
  · exact fun k hp hq hg hy => ⟨hp, hq, hg, hy⟩
  · intro k hp hq hg
    rcases k with ⟨p, q, g⟩
    simp only [DSAParams.fromJSON, decodeURL_encodeURL p hp,
      decodeURL_encodeURL q hq, decodeURL_encodeURL g hg]

/-- C9 witness: constructor canonicity and the JSON round-trip at
concrete buffers. -/
theorem dsakey_canonical_at_rest_witness :
    canonicalBuf (DSAParams.make [0, 3] [5] [7]).p = true ∧
    DSAParams.fromJSON (encodeURL [2]) (encodeURL [3]) (encodeURL [5]) =
      some ⟨[2], [3], [5]⟩ :=
  ⟨(dsakey_canonical_at_rest.1 [0, 3] [5] [7]).1,
   dsakey_canonical_at_rest.2.2.2.2.2.2 ⟨[2], [3], [5]⟩ (by decide) (by decide) (by decide)⟩

/-- C6: the signing retry loop.  Each attempt samples `k` by rejection,
accepting exactly the values in `[1, q-1]`; the loop makes at most 10
attempts, and when the key checks pass and each of the 10 sampled `k`
yields `r = 0` or `s = 0`, `sign` fails with the `SignatureFailed`
error (`Could not sign`). -/
theorem dsaSign_retry_budget :
    (∀ (q : ℕ) (stream : List (List ℕ)) (k : ℕ) (rest : List (List ℕ)),
        sampleK q stream = some (k, rest) → 0 < k ∧ k < q) ∧
    (∀ (msg : List ℕ) (key : DSAPrivateKey) (stream : List (List ℕ)),
        ¬(bn key.q = 0 ∨ bn key.p = 0 ∨ bn key.g = 0 ∨ bn key.x = 0 ∨
            bitLen (bn key.q) % 8 ≠ 0) →
        (acceptedKs (bn key.q) 10 stream).length = 10 →
        (∀ k ∈ acceptedKs (bn key.q) 10 stream,
            signAttempt (bn key.p) (bn key.q) (bn key.g) (bn key.x) (bn msg) k = none) →
        dsaSign msg key stream = .error .signatureFailed) := by
  constructor
  · exact fun q stream k rest h => sampleK_bounds h
  · intro msg key stream hchecks hlen hfail
    have hloop := signLoop_all_fail (p := bn key.p) (q := bn key.q) (g := bn key.g)
      (x := bn key.x) (z := bn msg) 10 stream hlen hfail
    simp only [dsaSign, hchecks, if_false, hloop]

/-- C6 witness: with `p = g = 3` every attempt yields `r = 0`, and a
stream of ten accepted samples exhausts the retry budget. -/
theorem dsaSign_retry_budget_witness :
    dsaSign [1] ⟨[3], [131], [3], [], [1]⟩ (List.replicate 10 [1]) =
      .error .signatureFailed :=
  dsaSign_retry_budget.2 [1] ⟨[3], [131], [3], [], [1]⟩ (List.replicate 10 [1])
    (by decide) (by decide) (by decide)

/-- C7: every signature produced by `sign` carries `r` and `s` as
buffers of exactly `⌈N/8⌉` bytes, where `N = countLeft(q)` is the bit
length of the key's `q` buffer: each is the minimal big-endian encoding
of its value left-padded with zero bytes, and each value is below `q`. -/
theorem dsaSign_signature_size (msg : List ℕ) (key : DSAPrivateKey)
    (stream : List (List ℕ)) (hqb : ∀ x ∈ key.q, x < 256) (rb sb : List ℕ)
    (h : dsaSign msg key stream = .ok (rb, sb)) :
    rb.length = (countLeft key.q + 7) / 8 ∧
    sb.length = (countLeft key.q + 7) / 8 ∧
    rb = leftPad (toBuffer (bn rb)) ((countLeft key.q + 7) / 8) ∧
    sb = leftPad (toBuffer (bn sb)) ((countLeft key.q + 7) / 8) ∧
    bn rb < bn key.q ∧ bn sb < bn key.q := by
  by_cases hchecks : bn key.q = 0 ∨ bn key.p = 0 ∨ bn key.g = 0 ∨ bn key.x = 0 ∨
      bitLen (bn key.q) % 8 ≠ 0
  · rw [dsaSign] at h
    rw [if_pos hchecks] at h
    exact Except.noConfusion h
  · have hq0 : bn key.q ≠ 0 := fun hc => hchecks (Or.inl hc)
    rcases hloop : signLoop (bn key.p) (bn key.q) (bn key.g) (bn key.x) (bn msg) 10 stream
      with e | ⟨r, s⟩
    · rw [dsaSign, if_neg hchecks] at h
      rw [hloop] at h
      exact Except.noConfusion h
    · have hrs : rb = leftPad (toBuffer r) key.size ∧ sb = leftPad (toBuffer s) key.size := by
        rw [dsaSign, if_neg hchecks] at h
        rw [hloop] at h
        have h' := Except.ok.inj h
        injection h' with h1 h2
        exact ⟨h1.symm, h2.symm⟩
      obtain ⟨k, hk0, hkq, hatt⟩ := signLoop_ok hloop
      have hrq : r < bn key.q ∧ s < bn key.q := by
        rw [signAttempt] at hatt
        by_cases hr0 : modPow (bn key.g) k (bn key.p) % bn key.q = 0
        · rw [if_pos hr0] at hatt
          exact Option.noConfusion hatt
        · rw [if_neg hr0] at hatt
          by_cases hs0 : ((bn key.x) * (modPow (bn key.g) k (bn key.p) % bn key.q)
              + bn msg) % bn key.q * modPow k (bn key.q - 2) (bn key.q) % bn key.q = 0
          · rw [if_pos hs0] at hatt
            exact Option.noConfusion hatt
          · rw [if_neg hs0] at hatt
            have h' := Option.some.inj hatt
            injection h' with h1 h2
            constructor
            · rw [← h1]
              exact Nat.mod_lt _ (Nat.pos_of_ne_zero hq0)
            · rw [← h2]
              exact Nat.mod_lt _ (Nat.pos_of_ne_zero hq0)
      have hsz : bn key.q < 256 ^ ((countLeft key.q + 7) / 8) := by
        have h1 : bn key.q < 2 ^ countLeft key.q := bn_lt_two_pow_countLeft hqb
        have h2 : (2 : ℕ) ^ countLeft key.q ≤ 2 ^ (8 * ((countLeft key.q + 7) / 8)) :=
          Nat.pow_le_pow_right (by omega) (by omega)
        rw [pow256_eq]
        omega
      have hsizepos : 0 < (countLeft key.q + 7) / 8 := by
        have : countLeft key.q ≠ 0 := by
          intro hc
          have := bn_lt_two_pow_countLeft hqb
          rw [hc] at this
          simp at this
          exact hq0 this
        omega
      have hrlen : (toBuffer r).length ≤ (countLeft key.q + 7) / 8 :=
        toBuffer_length_le hsizepos (by omega)
      have hslen : (toBuffer s).length ≤ (countLeft key.q + 7) / 8 :=
        toBuffer_length_le hsizepos (by omega)
      have hbr : bn rb = r := by rw [hrs.1]; exact bn_leftPad_toBuffer _ _
      have hbs : bn sb = s := by rw [hrs.2]; exact bn_leftPad_toBuffer _ _
      have hsizeeq : key.size = (countLeft key.q + 7) / 8 := rfl
      refine ⟨?_, ?_, ?_, ?_, ?_, ?_⟩
      · rw [hrs.1, hsizeeq]; exact leftPad_length hrlen
      · rw [hrs.2, hsizeeq]; exact leftPad_length hslen
      · rw [hbr, ← hsizeeq]; exact hrs.1
      · rw [hbs, ← hsizeeq]; exact hrs.2
      · rw [hbr]; exact hrq.1
      · rw [hbs]; exact hrq.2

/-- C7 witness: a concrete signature with an 8-bit `q` has 1-byte `r`
and `s`. -/
theorem dsaSign_signature_size_witness :
    ([65] : List ℕ).length = (countLeft ([131] : List ℕ) + 7) / 8 ∧
    ([124] : List ℕ).length = (countLeft ([131] : List ℕ) + 7) / 8 ∧
    ([65] : List ℕ) = leftPad (toBuffer (bn [65])) ((countLeft ([131] : List ℕ) + 7) / 8) ∧
    ([124] : List ℕ) = leftPad (toBuffer (bn [124])) ((countLeft ([131] : List ℕ) + 7) / 8) ∧
    bn [65] < bn ([131] : List ℕ) ∧ bn [124] < bn ([131] : List ℕ) :=
  dsaSign_signature_size [5] ⟨[1, 7], [131], [4], [235], [5]⟩ [[9]]
    (by decide) [65] [124] (by rfl)

theorem signAttempt_ok {p q g x z k r s : ℕ}
    (h : signAttempt p q g x z k = some (r, s)) :
    r = modPow g k p % q ∧ r ≠ 0 ∧
    s = (x * r + z) % q * modPow k (q - 2) q % q ∧ s ≠ 0 := by
  rw [signAttempt] at h
  by_cases hr0 : modPow g k p % q = 0
  · rw [if_pos hr0] at h
    exact Option.noConfusion h
  · rw [if_neg hr0] at h
    by_cases hs0 : (x * (modPow g k p % q) + z) % q * modPow k (q - 2) q % q = 0
    · rw [if_pos hs0] at h
      exact Option.noConfusion h
    · rw [if_neg hs0] at h
      have h' := Option.some.inj h
      injection h' with h1 h2
      refine ⟨h1.symm, ?_, ?_, ?_⟩
      · rw [← h1]; exact hr0
      · rw [← h2, ← h1]
      · rw [← h2]; exact hs0

/-- C1: the DSA sign/verify round trip.  For every private key whose
fields satisfy the DSAParams and key invariants (`p`, `q` prime,
`q ∣ p - 1`, `1 < g < p`, `g^q ≡ 1 (mod p)`, `0 < x < q`,
`y = g^x mod p`) with `bitLength(q)` a multiple of 8, and every message,
whenever `sign` returns a signature, `verify` accepts it with the
public key `toPublic(K)`. -/
theorem dsa_sign_verify_roundtrip (msg : List ℕ) (key : DSAPrivateKey)
    (stream : List (List ℕ))
    (hp : Nat.Prime (bn key.p)) (hq : Nat.Prime (bn key.q))
    (hdvd : bn key.q ∣ bn key.p - 1)
    (hg1 : 1 < bn key.g) (hgp : bn key.g < bn key.p)
    (hgq : modPow (bn key.g) (bn key.q) (bn key.p) = 1)
    (hx0 : 0 < bn key.x) (hxq : bn key.x < bn key.q)
    (hy : bn key.y = modPow (bn key.g) (bn key.x) (bn key.p))
    (hn8 : bitLen (bn key.q) % 8 = 0)
    (sig : List ℕ × List ℕ)
    (hsig : dsaSign msg key stream = .ok sig) :
    dsaVerify msg sig key.toPublic = .ok true := by
  have hP2 : 2 ≤ bn key.p := hp.two_le
  have hQ2 : 2 ≤ bn key.q := hq.two_le
  have hchecks : ¬(bn key.q = 0 ∨ bn key.p = 0 ∨ bn key.g = 0 ∨ bn key.x = 0 ∨
      bitLen (bn key.q) % 8 ≠ 0) := by
    rintro (h | h | h | h | h) <;> omega
  rw [dsaSign, if_neg hchecks] at hsig
  rcases hloop : signLoop (bn key.p) (bn key.q) (bn key.g) (bn key.x) (bn msg) 10 stream
    with e | ⟨r, s⟩
  · rw [hloop] at hsig
    exact Except.noConfusion hsig
  rw [hloop] at hsig
  obtain rfl := Except.ok.inj hsig
  obtain ⟨k, hk0, hkq, hatt⟩ := signLoop_ok hloop
  obtain ⟨hr_eq, hr0, hs_eq, hs0⟩ := signAttempt_ok hatt
  have hQpos : 0 < bn key.q := by omega
  have hr_lt : r < bn key.q := by rw [hr_eq]; exact Nat.mod_lt _ hQpos
  have hs_lt : s < bn key.q := by rw [hs_eq]; exact Nat.mod_lt _ hQpos
  have hbr : bn (leftPad (toBuffer r) key.size) = r := bn_leftPad_toBuffer _ _
  have hbs : bn (leftPad (toBuffer s) key.size) = s := bn_leftPad_toBuffer _ _
  have hgcdsq : Nat.gcd s (bn key.q) = 1 := by
    have hndvd : ¬ bn key.q ∣ s := by
      intro hc
      have := Nat.le_of_dvd (Nat.pos_of_ne_zero hs0) hc
      omega
    exact Nat.coprime_comm.mp ((Nat.Prime.coprime_iff_not_dvd hq).mpr hndvd)
  -- the verification value equals r
  haveI : Fact (Nat.Prime (bn key.q)) := ⟨hq⟩
  set P := bn key.p with hPdef
  set Q := bn key.q with hQdef
  set G := bn key.g with hGdef
  set X := bn key.x with hXdef
  set Z := bn msg with hZdef
  set w := invm s Q with hwdef
  have hw : s * w % Q = 1 % Q := invm_mul_mod hQpos hgcdsq
  have hkz : ((k : ℕ) : ZMod Q) ≠ 0 := by
    rw [Ne, ZMod.natCast_zmod_eq_zero_iff_dvd]
    intro hc
    have := Nat.le_of_dvd hk0 hc
    omega
  have hsz : ((s : ℕ) : ZMod Q) ≠ 0 := by
    rw [Ne, ZMod.natCast_zmod_eq_zero_iff_dvd]
    intro hc
    have := Nat.le_of_dvd (Nat.pos_of_ne_zero hs0) hc
    omega
  have hwz : ((s : ℕ) : ZMod Q) * ((w : ℕ) : ZMod Q) = 1 := by
    have h1 : ((s * w % Q : ℕ) : ZMod Q) = ((1 % Q : ℕ) : ZMod Q) := by rw [hw]
    rw [zmod_natCast_mod, zmod_natCast_mod] at h1
    push_cast at h1
    exact h1
  have hwinv : ((w : ℕ) : ZMod Q) = ((s : ℕ) : ZMod Q)⁻¹ :=
    eq_inv_of_mul_eq_one_right hwz
  have hki : ((modPow k (Q - 2) Q : ℕ) : ZMod Q) = ((k : ℕ) : ZMod Q)⁻¹ := by
    rw [modPow_eq, zmod_natCast_mod]
    push_cast
    have hfer : ((k : ℕ) : ZMod Q) ^ (Q - 1) = 1 :=
      ZMod.pow_card_sub_one_eq_one hkz
    have hstep : ((k : ℕ) : ZMod Q) ^ (Q - 2) * ((k : ℕ) : ZMod Q) =
        ((k : ℕ) : ZMod Q) ^ (Q - 1) := by
      rw [← pow_succ]
      congr 1
      omega
    exact eq_inv_of_mul_eq_one_left (hstep.trans hfer)
  have hsv : ((s : ℕ) : ZMod Q) =
      ((X * r + Z : ℕ) : ZMod Q) * ((k : ℕ) : ZMod Q)⁻¹ := by
    have h1 : ((s : ℕ) : ZMod Q) =
        (((X * r + Z) % Q * modPow k (Q - 2) Q % Q : ℕ) : ZMod Q) := by
      rw [← hs_eq]
    rw [zmod_natCast_mod] at h1
    push_cast at h1
    rw [zmod_natCast_mod] at h1
    push_cast at h1
    rw [h1, hki]
    push_cast
    ring
  have hA : ((X * r + Z : ℕ) : ZMod Q) ≠ 0 := by
    intro hc
    rw [hc, zero_mul] at hsv
    exact hsz hsv
  have hmain : ((Z * w % Q + X * (r * w % Q) : ℕ) : ZMod Q) = ((k : ℕ) : ZMod Q) := by
    push_cast [zmod_natCast_mod]
    calc ((Z : ℕ) : ZMod Q) * w + ((X : ℕ) : ZMod Q) * (((r : ℕ) : ZMod Q) * w)
        = ((w : ℕ) : ZMod Q) * (((X : ℕ) : ZMod Q) * r + Z) := by push_cast; ring
      _ = ((s : ℕ) : ZMod Q)⁻¹ * (((X * r + Z : ℕ) : ℕ) : ZMod Q) := by
          rw [hwinv]; push_cast; ring_nf
      _ = (((X * r + Z : ℕ) : ZMod Q) * ((k : ℕ) : ZMod Q)⁻¹)⁻¹ *
            ((X * r + Z : ℕ) : ZMod Q) := by rw [← hsv]
      _ = ((k : ℕ) : ZMod Q) := by
          rw [mul_inv_rev, inv_inv, mul_assoc, inv_mul_cancel₀ hA, mul_one]
  have hmodeq : Z * w % Q + X * (r * w % Q) ≡ k [MOD Q] :=
    (ZMod.natCast_eq_natCast_iff _ _ _).mp hmain
  have hgq' : G ^ Q % P = 1 := by rw [← modPow_eq]; exact hgq
  have hvP : G ^ (Z * w % Q) % P * ((G ^ X % P) ^ (r * w % Q) % P) % P = G ^ k % P := by
    have ha : (G ^ X % P) ^ (r * w % Q) % P = G ^ (X * (r * w % Q)) % P := by
      rw [← Nat.pow_mod, ← pow_mul]
    rw [ha, ← Nat.mul_mod, ← pow_add]
    exact pow_mod_congr hP2 hQpos hgq' hmodeq
  -- unfold verify
  have hP0 : P ≠ 0 := by omega
  have hrcond : ¬(r = 0 ∨ Q ≤ r) := by
    rintro (h | h)
    · exact hr0 h
    · omega
  have hscond : ¬(s = 0 ∨ Q ≤ s) := by
    rintro (h | h)
    · exact hs0 h
    · omega
  have hn8' : ¬ bitLen Q % 8 ≠ 0 := by omega
  have hfinal : modPow G (Z * w % Q) P * modPow (bn key.y) (r * w % Q) P % P % Q = r := by
    rw [modPow_eq, hy, modPow_eq, modPow_eq, hvP, hr_eq, modPow_eq]
  simp [dsaVerify, DSAPrivateKey.toPublic, hbr, hbs, hP0, hrcond, hscond, invmE,
    hgcdsq, hn8', hfinal]

/-- C1 witness: a complete sign/verify run over the 16-bit group
`p = 263`, `q = 131`, `g = 4`, `x = 5`, `y = 235`, message `100`,
nonce `k = 7`, producing the signature `(78, 70)`. -/
theorem dsa_sign_verify_roundtrip_witness :
    dsaVerify [100] ([78], [70]) (DSAPrivateKey.toPublic ⟨[1, 7], [131], [4], [235], [5]⟩) =
      .ok true :=
  dsa_sign_verify_roundtrip [100] ⟨[1, 7], [131], [4], [235], [5]⟩ [[7]]
    (by norm_num [bn]) (by norm_num [bn]) ⟨2, by decide⟩ (by decide) (by decide)
    (by rfl) (by decide) (by decide) (by rfl) (by rfl) ([78], [70]) (by rfl)

/-! ## Lemmas about the parameter-generation search -/

set_option maxRecDepth 8000 in
theorem byte_lor_lt : ∀ b < 256, b ||| 1 < 256 ∧ b ||| 128 < 256 ∧ 128 ≤ b ||| 128 := by
  decide

theorem orLast_length (m : ℕ) : ∀ l : List ℕ, (orLast m l).length = l.length := by
  intro l
  induction l with
  | nil => rfl
  | cons b rest ih =>
      cases rest with
      | nil => rfl
      | cons c rest' => simpa [orLast] using ih

theorem orLast_bytes_lt {l : List ℕ} (h : ∀ x ∈ l, x < 256) :
    ∀ x ∈ orLast 1 l, x < 256 := by
  induction l with
  | nil => simp [orLast]
  | cons b rest ih =>
      cases rest with
      | nil =>
          intro x hx
          have hb : b < 256 := h b (by simp)
          simp only [orLast, List.mem_singleton] at hx
          subst hx
          exact (byte_lor_lt b hb).1
      | cons c rest' =>
          intro x hx
          simp only [orLast, List.mem_cons] at hx
          rcases hx with rfl | hx
          · exact h x (by simp)
          · exact ih (fun y hy => h y (by simp [hy])) x hx

theorem candify_bytes_lt {l : List ℕ} (h : ∀ x ∈ l, x < 256) :
    ∀ x ∈ orFirst 128 (orLast 1 l), x < 256 := by
  have h' := orLast_bytes_lt h
  cases hl : orLast 1 l with
  | nil => simp [orFirst]
  | cons c rest =>
      intro x hx
      have hc : c < 256 := h' c (by rw [hl]; simp)
      simp only [orFirst, List.mem_cons] at hx
      rcases hx with rfl | hx
      · exact (byte_lor_lt c hc).2.1
      · exact h' x (by rw [hl]; simp [hx])

theorem candify_length (l : List ℕ) : (orFirst 128 (orLast 1 l)).length = l.length := by
  cases hl : orLast 1 l with
  | nil =>
      have := orLast_length 1 l
      rw [hl] at this
      simpa [orFirst] using this
  | cons c rest =>
      have := orLast_length 1 l
      rw [hl] at this
      simpa [orFirst] using this

theorem candify_lt {l : List ℕ} (h : ∀ x ∈ l, x < 256) :
    bn (orFirst 128 (orLast 1 l)) < 2 ^ (8 * l.length) := by
  have h1 := bn_lt_pow (candify_bytes_lt h)
  rw [candify_length] at h1
  rw [← pow256_eq]
  exact h1

theorem candify_ge {l : List ℕ} (hne : l ≠ []) (h : ∀ x ∈ l, x < 256) :
    2 ^ (8 * l.length - 1) ≤ bn (orFirst 128 (orLast 1 l)) := by
  cases l with
  | nil => exact absurd rfl hne
  | cons c rest =>
      cases rest with
      | nil =>
          have hc : c < 256 := h c (by simp)
          have h1 : c ||| 1 < 256 := (byte_lor_lt c hc).1
          have h2 : 128 ≤ (c ||| 1) ||| 128 := (byte_lor_lt _ h1).2.2
          simpa [orLast, orFirst, bn] using h2
      | cons d rest' =>
          have hc : c < 256 := h c (by simp)
          have h2 : 128 ≤ c ||| 128 := (byte_lor_lt c hc).2.2
          have hshape : orFirst 128 (orLast 1 (c :: d :: rest')) =
              (c ||| 128) :: orLast 1 (d :: rest') := by
            simp [orLast, orFirst]
          rw [hshape]
          have hlen : (orLast 1 (d :: rest')).length = rest'.length + 1 :=
            orLast_length 1 (d :: rest')
          have hbn : bn ((c ||| 128) :: orLast 1 (d :: rest')) =
              (c ||| 128) * 256 ^ (orLast 1 (d :: rest')).length
                + bn (orLast 1 (d :: rest')) := rfl
          rw [hbn, hlen]
          have hexp : 8 * (c :: d :: rest').length - 1 = 7 + 8 * (rest'.length + 1) := by
            simp only [List.length_cons]
            omega
          rw [hexp, pow_add, ← pow256_eq]
          have : 2 ^ 7 * 256 ^ (rest'.length + 1) ≤ (c ||| 128) * 256 ^ (rest'.length + 1) :=
            Nat.mul_le_mul_right _ (by omega)
          omega

theorem pSearch_rest {pp : ℕ → Bool} {L qn : ℕ} :
    ∀ {i : ℕ} {ps : List (List ℕ)} {r : Option ℕ} {rest : List (List ℕ)},
      pSearch pp L qn i ps = (r, rest) → ∀ b ∈ rest, b ∈ ps := by
  intro i
  induction i with
  | zero =>
      intro ps r rest h
      simp only [pSearch] at h
      injection h with h1 h2
      rw [← h2]
      exact fun b hb => hb
  | succ i ih =>
      intro ps r rest h
      cases ps with
      | nil =>
          simp only [pSearch] at h
          injection h with h1 h2
          rw [← h2]
          simp
      | cons pb tl =>
          simp only [pSearch] at h
          by_cases hbl : bitLen (bn (orFirst 128 (orLast 1 pb)) + 1
              - bn (orFirst 128 (orLast 1 pb)) % qn) < L
          · rw [if_pos hbl] at h
            exact fun b hb => List.mem_cons_of_mem _ (ih h b hb)
          · rw [if_neg hbl] at h
            by_cases hpp : pp (bn (orFirst 128 (orLast 1 pb)) + 1
                - bn (orFirst 128 (orLast 1 pb)) % qn) = true
            · rw [if_pos hpp] at h
              injection h with h1 h2
              rw [← h2]
              exact fun b hb => List.mem_cons_of_mem _ hb
            · rw [if_neg hpp] at h
              exact fun b hb => List.mem_cons_of_mem _ (ih h b hb)

theorem pSearch_sound {pp : ℕ → Bool} {L qn : ℕ} {Pb : List ℕ → Prop} :
    ∀ {i : ℕ} {ps : List (List ℕ)}, (∀ b ∈ ps, Pb b) →
      ∀ {pn : ℕ} {rest : List (List ℕ)},
        pSearch pp L qn i ps = (some pn, rest) →
        ∃ pb, Pb pb ∧
          pn = bn (orFirst 128 (orLast 1 pb)) + 1 - bn (orFirst 128 (orLast 1 pb)) % qn ∧
          ¬ bitLen pn < L ∧ pp pn = true := by
  intro i
  induction i with
  | zero =>
      intro ps hps pn rest h
      simp only [pSearch] at h
      injection h with h1 h2
      exact Option.noConfusion h1
  | succ i ih =>
      intro ps hps pn rest h
      cases ps with
      | nil =>
          simp only [pSearch] at h
          injection h with h1 h2
          exact Option.noConfusion h1
      | cons pb tl =>
          have htl : ∀ b ∈ tl, Pb b := fun b hb => hps b (List.mem_cons_of_mem _ hb)
          simp only [pSearch] at h
          by_cases hbl : bitLen (bn (orFirst 128 (orLast 1 pb)) + 1
              - bn (orFirst 128 (orLast 1 pb)) % qn) < L
          · rw [if_pos hbl] at h
            exact ih htl h
          · rw [if_neg hbl] at h
            by_cases hpp : pp (bn (orFirst 128 (orLast 1 pb)) + 1
                - bn (orFirst 128 (orLast 1 pb)) % qn) = true
            · rw [if_pos hpp] at h
              injection h with h1 h2
              have hpn := Option.some.inj h1
              refine ⟨pb, hps pb (List.mem_cons_self _ _), hpn.symm, ?_, ?_⟩
              · rw [← hpn]; exact hbl
              · rw [← hpn]; exact hpp
            · rw [if_neg hpp] at h
              exact ih htl h

theorem pqSearch_sound {pp : ℕ → Bool} {L : ℕ} {Pq Pb : List ℕ → Prop} :
    ∀ {qs ps : List (List ℕ)}, (∀ b ∈ qs, Pq b) → (∀ b ∈ ps, Pb b) →
      ∀ {pn qn : ℕ}, pqSearch pp L qs ps = some (pn, qn) →
        (∃ qb, Pq qb ∧ qn = bn (orFirst 128 (orLast 1 qb)) ∧ pp qn = true) ∧
        (∃ pb, Pb pb ∧
          pn = bn (orFirst 128 (orLast 1 pb)) + 1 - bn (orFirst 128 (orLast 1 pb)) % qn ∧
          ¬ bitLen pn < L ∧ pp pn = true) := by
  intro qs
  induction qs with
  | nil =>
      intro ps hqs hps pn qn h
      simp [pqSearch] at h
  | cons qb qtl ih =>
      intro ps hqs hps pn qn h
      have hqtl : ∀ b ∈ qtl, Pq b := fun b hb => hqs b (List.mem_cons_of_mem _ hb)
      simp only [pqSearch] at h
      by_cases hppq : pp (bn (orFirst 128 (orLast 1 qb))) = true
      · rw [if_pos hppq] at h
        rcases hsearch : pSearch pp L (bn (orFirst 128 (orLast 1 qb))) (4 * L) ps
          with ⟨found, rest⟩
        rw [hsearch] at h
        cases found with
        | none =>
            have hrest : ∀ b ∈ rest, Pb b := fun b hb => hps b (pSearch_rest hsearch b hb)
            exact ih hqtl hrest h
        | some pn' =>
            have h' := Option.some.inj h
            injection h' with h1 h2
            subst h1
            subst h2
            refine ⟨⟨qb, hqs qb (List.mem_cons_self _ _), rfl, hppq⟩, ?_⟩
            exact pSearch_sound hps hsearch
      · rw [if_neg hppq] at h
        exact ih hqtl hps h

theorem gSearch_sound {p e : ℕ} :
    ∀ {fuel h g : ℕ}, gSearch p e fuel h = some g →
      ∃ h', h ≤ h' ∧ g = modPow h' e p ∧ g ≠ 1 ∧
        ∀ t, h ≤ t → t < h' → modPow t e p = 1 := by
  intro fuel
  induction fuel with
  | zero =>
      intro h g hg
      simp [gSearch] at hg
  | succ fuel ih =>
      intro h g hg
      simp only [gSearch] at hg
      by_cases h1 : modPow h e p = 1
      · rw [if_pos h1] at hg
        obtain ⟨h', hle, hgeq, hgne, hall⟩ := ih hg
        refine ⟨h', by omega, hgeq, hgne, ?_⟩
        intro t hlo hhi
        rcases Nat.eq_or_lt_of_le hlo with rfl | hlt
        · exact h1
        · exact hall t (by omega) hhi
      · rw [if_neg h1] at hg
        have := Option.some.inj hg
        exact ⟨h, le_rfl, this.symm, by rw [← this]; exact h1, fun t hlo hhi => by omega⟩

/-- In the multiplicative group of `ZMod p` (`p` prime) there is an
element of `[2, p-1]` whose `e`-th power mod `p` is not 1, whenever
`1 ≤ e < p - 1`: a generator of the (cyclic) unit group. -/
theorem exists_pow_mod_ne_one {p e : ℕ} (hp : Nat.Prime p) (he1 : 1 ≤ e)
    (helt : e < p - 1) :
    ∃ t, 2 ≤ t ∧ t ≤ p - 1 ∧ t ^ e % p ≠ 1 := by
  haveI : Fact p.Prime := ⟨hp⟩
  obtain ⟨ζ, hζ⟩ : ∃ g : (ZMod p)ˣ, ∀ x, x ∈ Subgroup.zpowers g :=
    IsCyclic.exists_generator
  have hord : orderOf ζ = p - 1 := by
    rw [orderOf_eq_card_of_forall_mem_zpowers hζ, Nat.card_eq_fintype_card,
      ZMod.card_units p]
  have hzne : ζ ^ e ≠ 1 := by
    intro hc
    have hdv : orderOf ζ ∣ e := orderOf_dvd_of_pow_eq_one hc
    rw [hord] at hdv
    have := Nat.le_of_dvd (by omega) hdv
    omega
  set t := ((ζ : (ZMod p)ˣ) : ZMod p).val with htdef
  have hp1 : 1 < p := hp.one_lt
  haveI : NeZero p := ⟨by omega⟩
  have hcast : ((t : ℕ) : ZMod p) = (ζ : ZMod p) := ZMod.natCast_rightInverse _
  have htlt : t < p := ZMod.val_lt _
  have htne0 : ((ζ : (ZMod p)ˣ) : ZMod p) ≠ 0 := Units.ne_zero ζ
  have ht0 : t ≠ 0 := by
    intro hc
    apply htne0
    rw [← hcast, hc]
    simp
  have ht1 : t ≠ 1 := by
    intro hc
    have hone : ((ζ : (ZMod p)ˣ) : ZMod p) = 1 := by rw [← hcast, hc]; simp
    have hζ1 : ζ = 1 := Units.val_eq_one.mp hone
    rw [hζ1] at hord
    simp at hord
    omega
  refine ⟨t, by omega, by omega, ?_⟩
  intro hc
  have hcz : ((t ^ e % p : ℕ) : ZMod p) = ((1 : ℕ) : ZMod p) := by rw [hc]
  rw [zmod_natCast_mod] at hcz
  push_cast at hcz
  rw [hcast] at hcz
  have hval : ((ζ ^ e : (ZMod p)ˣ) : ZMod p) = ((1 : (ZMod p)ˣ) : ZMod p) := by
    rw [Units.val_pow_eq_pow_val]
    simpa using hcz
  exact hzne (Units.ext hval)

/-- C3: every `DSAParams` value returned by the parameter-generation
search satisfies `q ∣ p - 1`, `g^q mod p = 1`, `g ≠ 1`,
`bitLength(p) = L` and `bitLength(q) = N` — provided the random streams
are well-formed (`N/8`- resp. `L/8`-byte buffers of genuine bytes) and
the accepted `p` is really prime (the code can only check this with the
probabilistic `probablyPrime` oracle).  `generate(L, N)` is the
parameter-size check followed by `generateCore`, so this covers every
params value generation can return. -/
theorem generate_params_invariants (pp : ℕ → Bool) (L N : ℕ)
    (qs ps : List (List ℕ)) (gfuel : ℕ)
    (hN8 : N % 8 = 0) (hN : 8 ≤ N) (hL8 : L % 8 = 0) (hNL : N < L)
    (hqs : ∀ b ∈ qs, b.length = N / 8 ∧ ∀ x ∈ b, x < 256)
    (hps : ∀ b ∈ ps, b.length = L / 8 ∧ ∀ x ∈ b, x < 256)
    (params : DSAParams)
    (hgen : generateCore pp L qs ps gfuel = some params)
    (hp : Nat.Prime (bn params.p)) :
    bn params.q ∣ bn params.p - 1 ∧
    modPow (bn params.g) (bn params.q) (bn params.p) = 1 ∧
    bn params.g ≠ 1 ∧
    bitLen (bn params.p) = L ∧
    bitLen (bn params.q) = N := by
  rcases hpq : pqSearch pp L qs ps with _ | ⟨pn, qn⟩
  · simp [generateCore, hpq] at hgen
  rcases hgs : gSearch pn ((pn - 1) / qn) gfuel 2 with _ | gn
  · simp [generateCore, hpq, hgs] at hgen
  simp only [generateCore, hpq, hgs] at hgen
  obtain rfl := Option.some.inj hgen
  simp only [bn_toBuffer] at hp ⊢
  obtain ⟨⟨qb, ⟨hqlen, hqbytes⟩, hqn_eq, hppq⟩, ⟨pb, ⟨hplen, hpbytes⟩, hpn_eq, hpbl, hppp⟩⟩ :=
    pqSearch_sound hqs hps hpq
  have hN8' : 8 * (N / 8) = N := by omega
  have hL8' : 8 * (L / 8) = L := by omega
  have hL16 : 16 ≤ L := by omega
  -- bounds on q
  have hqb_ne : qb ≠ [] := by
    intro hc
    rw [hc] at hqlen
    simp at hqlen
    omega
  have hq_lo : 2 ^ (N - 1) ≤ qn := by
    have h1 := candify_ge hqb_ne hqbytes
    rw [hqlen, hN8'] at h1
    rw [hqn_eq]
    exact h1
  have hq_hi : qn < 2 ^ N := by
    have h1 := candify_lt hqbytes
    rw [hqlen, hN8'] at h1
    rw [hqn_eq]
    exact h1
  have hbitq : bitLen qn = N := bitLen_eq_of_bounds (by omega) hq_lo hq_hi
  have hqpos : 2 ≤ qn := by
    have h1 : (2 : ℕ) ^ 1 ≤ 2 ^ (N - 1) := Nat.pow_le_pow_right (by omega) (by omega)
    omega
  -- bounds on the p candidate
  set C := bn (orFirst 128 (orLast 1 pb)) with hC
  have hC_hi : C < 2 ^ L := by
    have h1 := candify_lt hpbytes
    rw [hplen, hL8'] at h1
    exact h1
  have hCmod : C % qn ≤ C := Nat.mod_le _ _
  have hpn1 : pn = qn * (C / qn) + 1 := by
    have hdm := Nat.div_add_mod C qn
    omega
  have hpmod : pn % qn = 1 := by
    rw [hpn1, Nat.mul_add_mod]
    exact Nat.mod_eq_of_lt (by omega)
  have hdvdq : qn ∣ pn - 1 := ⟨C / qn, by omega⟩
  -- bit length of p
  have hp_lo : 2 ^ (L - 1) ≤ pn := by
    have h1 : L - 1 < bitLen pn := by omega
    exact lt_bitLen.mp h1
  have hp_hi : pn < 2 ^ L := by
    rcases Nat.lt_or_ge pn (2 ^ L) with h | h
    · exact h
    · exfalso
      have heq : pn = 2 ^ L := by omega
      have heven : 2 ∣ pn := by
        rw [heq]
        exact dvd_pow_self 2 (by omega)
      have hbig : 2 ^ 16 ≤ 2 ^ L := Nat.pow_le_pow_right (by omega) hL16
      rcases Nat.Prime.eq_one_or_self_of_dvd hp 2 heven with h2 | h2
      · omega
      · omega
  have hbitp : bitLen pn = L := bitLen_eq_of_bounds (by omega) hp_lo hp_hi
  -- the exponent e = (p - 1) / q
  have hqlt : qn < pn := by
    have h1 : (2 : ℕ) ^ N ≤ 2 ^ (L - 1) := Nat.pow_le_pow_right (by omega) (by omega)
    omega
  have he1 : 1 ≤ (pn - 1) / qn := (Nat.one_le_div_iff (by omega)).mpr (by omega)
  have heq' : (pn - 1) / qn * qn = pn - 1 := Nat.div_mul_cancel hdvdq
  have helt : (pn - 1) / qn < pn - 1 := by
    have h1 : (pn - 1) / qn ≤ (pn - 1) / 2 := Nat.div_le_div_left (by omega) (by omega)
    have h2 : (pn - 1) / 2 < pn - 1 := Nat.div_lt_self (by omega) (by omega)
    omega
  -- the generator search stopped below p
  obtain ⟨h', hh2, hg_eq, hg_ne1, hall⟩ := gSearch_sound hgs
  obtain ⟨t, ht2, htp, htne⟩ := exists_pow_mod_ne_one hp he1 helt
  have hh'le : h' ≤ t := by
    by_contra hcon
    push_neg at hcon
    have h1 := hall t ht2 hcon
    rw [modPow_eq] at h1
    exact htne h1
  have hndvd : ¬ pn ∣ h' := by
    intro hc
    have h1 := Nat.le_of_dvd (by omega) hc
    omega
  -- Fermat gives g^q ≡ 1 (mod p)
  haveI : Fact (Nat.Prime pn) := ⟨hp⟩
  have hhz : ((h' : ℕ) : ZMod pn) ≠ 0 := by
    rw [Ne, ZMod.natCast_zmod_eq_zero_iff_dvd]
    exact hndvd
  have hfer : h' ^ (pn - 1) % pn = 1 := by
    have h1 : ((h' ^ (pn - 1) : ℕ) : ZMod pn) = ((1 : ℕ) : ZMod pn) := by
      push_cast
      exact ZMod.pow_card_sub_one_eq_one hhz
    have h2 := (ZMod.natCast_eq_natCast_iff _ _ _).mp h1
    rw [Nat.ModEq] at h2
    rw [h2]
    exact Nat.mod_eq_of_lt (by omega)
  have hgq1 : modPow gn qn pn = 1 := by
    rw [modPow_eq, hg_eq, modPow_eq, ← Nat.pow_mod, ← pow_mul, heq']
    exact hfer
  exact ⟨hdvdq, hgq1, hg_ne1, hbitp, hbitq⟩

/-- C3 witness: a run with the trivial primality oracle over 1- and
2-byte buffers produces `q = 129`, `p = 34057` (prime), `g = 27500`,
and the invariants hold. -/
theorem generate_params_invariants_witness :
    bn (toBuffer 129) ∣ bn (toBuffer 34057) - 1 ∧
    modPow (bn (toBuffer 27500)) (bn (toBuffer 129)) (bn (toBuffer 34057)) = 1 ∧
    bn (toBuffer 27500) ≠ 1 ∧
    bitLen (bn (toBuffer 34057)) = 16 ∧
    bitLen (bn (toBuffer 129)) = 8 :=
  generate_params_invariants (fun _ => true) 16 8 [[0]] [[5, 8]] 1
    (by norm_num) (by norm_num) (by norm_num) (by norm_num)
    (by decide) (by decide)
    ⟨toBuffer 34057, toBuffer 129, toBuffer 27500⟩ (by rfl)
    (by rw [bn_toBuffer]; norm_num)
